import Mathlib

/-!
Shallow embedding of the half-space-trees library (`src/lib.rs`) for streaming
anomaly detection: randomized complete binary trees over a bounded feature
space, per-node decayed mass counters, and a forest wrapper averaging scores.

Modelling conventions:
* `f64` values are modelled as exact rationals `ℚ`; IEEE rounding is not
  modelled.  Division by a zero tree count, which in `f64` produces the
  non-finite value `NaN` (`0.0/0.0`), is modelled as an `Except.error`.
* Rust panics (`assert!`, `assert_eq!`, `Uniform::try_from(..).unwrap()`,
  `random_range` on an empty range) are modelled as `Except.error`.
* The random source `R: Rng` is modelled as two streams of raw draws plus a
  cursor: `random_range(0..n)` consumes one draw from the `Nat` stream
  (reduced mod `n`), and sampling `Uniform::try_from(lo..hi)` consumes one
  draw from the `ℚ` stream, mapped into `[lo, hi)` via its fractional part.
  Each node construction therefore consumes exactly one (dimension,
  threshold) pair of draws, in source order.
-/

namespace HST

/-- Model of the injected random source `R: Rng`: two pure streams of raw
draws and a cursor marking how much has been consumed. -/
structure Rng where
  nats : Nat → Nat
  rats : Nat → ℚ
  idx : Nat

/-- Advance the cursor by one consumed draw. -/
def Rng.next (g : Rng) : Rng :=
  ⟨g.nats, g.rats, g.idx + 1⟩

/-- `rng.random_range(0..n)`: uniform draw from `[0, n)`; panics on an empty
range (`n = 0`). -/
def Rng.randRange (g : Rng) (n : Nat) : Except String (Nat × Rng) :=
  if n = 0 then .error "cannot sample empty range"
  else .ok (g.nats g.idx % n, g.next)

/-- Fractional part, used to map a raw draw into `[0, 1)`. -/
def fract (q : ℚ) : ℚ := q - ⌊q⌋

/-- `Uniform::try_from(lo..hi).unwrap()` followed by `.sample(rng)`: fails
(panicking `unwrap`) when the half-open range `lo..hi` is empty, i.e. unless
`lo < hi`; otherwise returns a value in `[lo, hi)`. -/
def Rng.sampleUniform (g : Rng) (lo hi : ℚ) : Except String (ℚ × Rng) :=
  if lo < hi then .ok (lo + (hi - lo) * fract (g.rats g.idx), g.next)
  else .error "Uniform::try_from on empty range"

/-- `struct Node`: split definition, optional children, depth and mass
(`Option<Box<Node>>` becomes `Option Node`). -/
inductive Node : Type where
  | mk (split_dim : Nat) (split_val : ℚ) (left : Option Node)
      (right : Option Node) (depth : Nat) (mass : ℚ) : Node
deriving Repr

namespace Node

/-- The `mass` field. -/
def mass : Node → ℚ
  | .mk _ _ _ _ _ m => m

/-- The `depth` field. -/
def depth : Node → Nat
  | .mk _ _ _ _ d _ => d

/-- `Node::insert`: add 1.0 to the local mass, then descend into exactly one
child when both are present (`x[split_dim] < split_val` goes left, otherwise
right); `x[i]` is modelled as `x.getD i 0` (in-bounds for every call the
library makes). -/
def insert (x : List ℚ) : Node → Node
  | .mk sd sv (some l) (some r) dep m =>
      if x.getD sd 0 < sv then
        .mk sd sv (some (insert x l)) (some r) dep (m + 1)
      else
        .mk sd sv (some l) (some (insert x r)) dep (m + 1)
  | .mk sd sv l r dep m => .mk sd sv l r dep (m + 1)

/-- `Node::decay`: multiply the local mass by `alpha` and recurse into every
present child (full traversal). -/
def decay (alpha : ℚ) : Node → Node
  | .mk sd sv (some l) (some r) dep m =>
      .mk sd sv (some (decay alpha l)) (some (decay alpha r)) dep (m * alpha)
  | .mk sd sv (some l) none dep m =>
      .mk sd sv (some (decay alpha l)) none dep (m * alpha)
  | .mk sd sv none (some r) dep m =>
      .mk sd sv none (some (decay alpha r)) dep (m * alpha)
  | .mk sd sv none none dep m =>
      .mk sd sv none none dep (m * alpha)

/-- `Node::score`: walk to the first node lacking a full pair of children
(the break of the source's loop), then return `rarity * depth_factor` with
`depth_factor = 1 + (max_depth - depth) / (max_depth + 1)` and
`rarity = 1 / (1 + mass.max(0))`.  `max_depth - depth` is a `u32`
subtraction in the source, modelled by truncated `Nat` subtraction; the two
agree whenever `depth ≤ max_depth`, which holds on every constructed tree. -/
def score (x : List ℚ) (maxDepth : Nat) : Node → ℚ
  | .mk sd sv (some l) (some r) _ _ =>
      if x.getD sd 0 < sv then score x maxDepth l else score x maxDepth r
  | .mk _ _ _ _ dep m =>
      (1 / (1 + max m 0)) * (1 + ((maxDepth - dep : Nat) : ℚ) / (maxDepth + 1))

/-- The body of `Node::randomized`: sample `split_dim` from `[0, n_dims)`
and `split_val` uniformly from `bounds[split_dim]`, then stop at `max_depth`
or recursively build both children.  The source compares
`depth == max_depth`; it is written here as `maxDepth ≤ depth`, equivalent at
every call the library makes (construction starts at depth 0 and recursion
keeps `depth ≤ max_depth`).  The source recurses directly on `depth + 1` and
terminates because the depth check halts it; the decreasing measure
`max_depth - depth` is materialized as the `fuel` argument, and the
fuel-exhausted branch is unreachable whenever `maxDepth ≤ depth + fuel`,
which `randomized` establishes. -/
def randomizedFuel : Nat → Nat → Nat → List (ℚ × ℚ) → Rng →
    Except String (Node × Rng)
  | fuel, depth, maxDepth, bounds, g => do
    let (split_dim, g) ← g.randRange bounds.length
    let b := bounds.getD split_dim (0, 0)
    let (split_val, g) ← g.sampleUniform b.1 b.2
    if maxDepth ≤ depth then
      return (.mk split_dim split_val none none depth 0, g)
    else
      match fuel with
      | 0 => throw "unreachable: fuel exhausted below max_depth"
      | fuel + 1 => do
        let (l, g) ← randomizedFuel fuel (depth + 1) maxDepth bounds g
        let (r, g) ← randomizedFuel fuel (depth + 1) maxDepth bounds g
        return (.mk split_dim split_val (some l) (some r) depth 0, g)

/-- `Node::randomized`, entered with just enough fuel for the recursion to
reach `max_depth`. -/
def randomized (depth maxDepth : Nat) (bounds : List (ℚ × ℚ)) (g : Rng) :
    Except String (Node × Rng) :=
  randomizedFuel (maxDepth - depth) depth maxDepth bounds g

end Node

/-- `struct HalfSpaceTree`. -/
structure HalfSpaceTree where
  root : Node
  max_depth : Nat
  n_dims : Nat
deriving Repr

namespace HalfSpaceTree

/-- `HalfSpaceTree::new`: asserts `bounds` is non-empty, then builds the
randomized root. -/
def new (maxDepth : Nat) (bounds : List (ℚ × ℚ)) (g : Rng) :
    Except String (HalfSpaceTree × Rng) := do
  if bounds.isEmpty then throw "bounds must not be empty"
  let (root, g) ← Node.randomized 0 maxDepth bounds g
  return (⟨root, maxDepth, bounds.length⟩, g)

/-- `HalfSpaceTree::insert`: asserts `x.len() == n_dims`, then inserts at the
root.  The panicking assertion is the `Except.error`. -/
def insert (t : HalfSpaceTree) (x : List ℚ) : Except String HalfSpaceTree := do
  if x.length ≠ t.n_dims then throw "assertion failed: x.len() == self.n_dims"
  return { t with root := t.root.insert x }

/-- `HalfSpaceTree::decay`: decay the whole tree (no validation). -/
def decay (t : HalfSpaceTree) (alpha : ℚ) : HalfSpaceTree :=
  { t with root := t.root.decay alpha }

/-- `HalfSpaceTree::score`: asserts `x.len() == n_dims`, then scores from the
root with the stored `max_depth`. -/
def score (t : HalfSpaceTree) (x : List ℚ) : Except String ℚ := do
  if x.length ≠ t.n_dims then throw "assertion failed: x.len() == self.n_dims"
  return t.root.score x t.max_depth

end HalfSpaceTree

/-- `struct HalfSpaceTrees`: the forest. -/
structure HalfSpaceTrees where
  trees : List HalfSpaceTree
deriving Repr

namespace HalfSpaceTrees

/-- Build `n` trees sequentially, threading the random source. -/
def buildTrees (n maxDepth : Nat) (bounds : List (ℚ × ℚ)) (g : Rng) :
    Except String (List HalfSpaceTree × Rng) :=
  match n with
  | 0 => .ok ([], g)
  | n + 1 => do
      let (t, g) ← HalfSpaceTree.new maxDepth bounds g
      let (ts, g) ← buildTrees n maxDepth bounds g
      return (t :: ts, g)

/-- `HalfSpaceTrees::new`: `(0..n_trees).map(|_| HalfSpaceTree::new(..))`,
each tree consuming further draws from the same source. -/
def new (nTrees maxDepth : Nat) (bounds : List (ℚ × ℚ)) (g : Rng) :
    Except String (HalfSpaceTrees × Rng) := do
  let (trees, g) ← buildTrees nTrees maxDepth bounds g
  return (⟨trees⟩, g)

/-- `HalfSpaceTrees::insert`: insert into every tree in order; the first
panicking tree aborts the call. -/
def insert (f : HalfSpaceTrees) (x : List ℚ) : Except String HalfSpaceTrees := do
  let trees ← f.trees.mapM (fun t => t.insert x)
  return ⟨trees⟩

/-- `HalfSpaceTrees::decay`: decay every tree. -/
def decay (f : HalfSpaceTrees) (alpha : ℚ) : HalfSpaceTrees :=
  ⟨f.trees.map (fun t => t.decay alpha)⟩

/-- `HalfSpaceTrees::score`: sum the per-tree scores, then divide by the
number of trees.  With zero trees the source computes `0.0 / 0.0 = NaN` in
`f64`; the non-finite result is modelled as an error value. -/
def score (f : HalfSpaceTrees) (x : List ℚ) : Except String ℚ := do
  let s ← f.trees.foldlM (fun s t => do
    let v ← t.score x
    return s + v) (0 : ℚ)
  if f.trees.length = 0 then throw "0.0 / 0.0 is NaN"
  return s / (f.trees.length : ℚ)

end HalfSpaceTrees

/-! ### Observers used to state the properties (not part of the source API) -/

namespace Node

/-- The mass stored at the node addressed by a list of directions from this
node (`false` = left, `true` = right); `none` when the address leaves
the tree. -/
def massAt : Node → List Bool → Option ℚ
  | .mk _ _ _ _ _ m, [] => some m
  | .mk _ _ l _ _ _, false :: p => match l with
      | some c => massAt c p
      | none => none
  | .mk _ _ _ r _ _, true :: p => match r with
      | some c => massAt c p
      | none => none

/-- The address of the node where `insert x` / `score x` stop: descend left
when `x[split_dim] < split_val`, right otherwise, until a node lacking a full
pair of children. -/
def pathOf : Node → List ℚ → List Bool
  | .mk sd sv (some l) (some r) _ _, x =>
      if x.getD sd 0 < sv then false :: pathOf l x else true :: pathOf r x
  | .mk _ _ _ _ _ _, _ => []

/-- All masses stored in the tree. -/
def masses : Node → List ℚ
  | .mk _ _ (some l) (some r) _ m => m :: (masses l ++ masses r)
  | .mk _ _ (some l) none _ m => m :: masses l
  | .mk _ _ none (some r) _ m => m :: masses r
  | .mk _ _ none none _ m => [m]

/-- Structural well-formedness of a constructed tree rooted at depth `d`:
the stored depth matches, `split_dim < n_dims`, children come in pairs, and
leaves sit exactly at `max_depth` (so the tree is complete). -/
def wf (nDims maxDepth : Nat) : Node → Nat → Bool
  | .mk sd _ (some l) (some r) dep _, d =>
      sd < nDims && dep == d && d < maxDepth &&
        wf nDims maxDepth l (d + 1) && wf nDims maxDepth r (d + 1)
  | .mk sd _ none none dep _, d =>
      sd < nDims && dep == d && d == maxDepth
  | .mk _ _ _ _ _ _, _ => false

/-- The tree with every mass replaced by 0: the node's shape (children,
split definition, depth), used to state that operations never change it. -/
def eraseMass : Node → Node
  | .mk sd sv (some l) (some r) dep _ =>
      .mk sd sv (some (eraseMass l)) (some (eraseMass r)) dep 0
  | .mk sd sv (some l) none dep _ => .mk sd sv (some (eraseMass l)) none dep 0
  | .mk sd sv none (some r) dep _ => .mk sd sv none (some (eraseMass r)) dep 0
  | .mk sd sv none none dep _ => .mk sd sv none none dep 0

end Node

/-- A call in the mutation history of a forest. -/
inductive Op : Type where
  | insert (x : List ℚ) : Op
  | decay (alpha : ℚ) : Op
deriving Repr

/-- Apply one call to the forest. -/
def applyOp (f : HalfSpaceTrees) : Op → Except String HalfSpaceTrees
  | .insert x => f.insert x
  | .decay alpha => .ok (f.decay alpha)

/-- Run a whole call history. -/
def runOps (f : HalfSpaceTrees) (ops : List Op) : Except String HalfSpaceTrees :=
  ops.foldlM applyOp f

/-- One complete run: construct the forest from the seeded source, replay the
call history, and score a query. -/
def runScore (nTrees maxDepth : Nat) (bounds : List (ℚ × ℚ)) (g : Rng)
    (ops : List Op) (x : List ℚ) : Except String ℚ := do
  let (f, _) ← HalfSpaceTrees.new nTrees maxDepth bounds g
  let f ← runOps f ops
  f.score x

/-! ### Concrete values used to instantiate the properties -/

/-- A concrete deterministic random source: every raw `Nat` draw is 0 and
every raw `ℚ` draw is 1/2. -/
def rng0 : Rng := ⟨fun _ => 0, fun _ => 1 / 2, 0⟩

/-- `rng0` after the six draws of a depth-1 tree construction. -/
def rng6 : Rng := ⟨fun _ => 0, fun _ => 1 / 2, 6⟩

/-- `rng0` after the two draws of a depth-0 tree construction. -/
def rng2 : Rng := ⟨fun _ => 0, fun _ => 1 / 2, 2⟩

/-- The depth-1 tree `Node.randomized 0 1 [(0, 1)] rng0` builds: every split
is on dimension 0 at threshold 1/2. -/
def node1 : Node :=
  .mk 0 (1 / 2) (some (.mk 0 (1 / 2) none none 1 0))
    (some (.mk 0 (1 / 2) none none 1 0)) 0 0

/-- The single-node tree `Node.randomized 0 0 [(0, 1)] rng0` builds. -/
def node0 : Node := .mk 0 (1 / 2) none none 0 0

/-- A one-dimensional depth-1 `HalfSpaceTree` around `node1`. -/
def tree1 : HalfSpaceTree := ⟨node1, 1, 1⟩

/-! ### Helper lemmas -/

/-- Reduce a monadic bind on a known success. -/
theorem ok_bind {α β : Type} (a : α) (f : α → Except String β) :
    (Except.ok a >>= f) = f a := rfl

/-- Reduce a monadic bind on a known failure. -/
theorem error_bind {α β : Type} (e : String) (f : α → Except String β) :
    ((Except.error e : Except String α) >>= f) = Except.error e := rfl

/-- `throw` on `Except` is the error constructor. -/
theorem except_throw {α : Type} (e : String) :
    (throw e : Except String α) = Except.error e := rfl

/-- `pure` on `Except` is the success constructor. -/
theorem except_pure {α : Type} (a : α) :
    (pure a : Except String α) = Except.ok a := rfl

/-- Unfold `randRange` on a successful draw: the sampled index is in range
and the cursor advances by one. -/
theorem randRange_ok {g g₁ : Rng} {n k : Nat}
    (h : g.randRange n = .ok (k, g₁)) : k < n ∧ g₁ = g.next := by
  unfold Rng.randRange at h
  by_cases hn : n = 0
  · simp [hn] at h
  · rw [if_neg hn] at h
    injection h with h
    injection h with h1 h2
    exact ⟨h1 ▸ Nat.mod_lt _ (Nat.pos_of_ne_zero hn), h2.symm⟩

/-- Unfold `sampleUniform` on a success: the range was non-degenerate and the
cursor advances by one. -/
theorem sampleUniform_ok {g g₁ : Rng} {lo hi v : ℚ}
    (h : g.sampleUniform lo hi = .ok (v, g₁)) : lo < hi ∧ g₁ = g.next := by
  unfold Rng.sampleUniform at h
  by_cases hlt : lo < hi
  · rw [if_pos hlt] at h
    injection h with h
    injection h with h1 h2
    exact ⟨hlt, h2.symm⟩
  · rw [if_neg hlt] at h
    exact absurd h (by simp)

/-- `insert` adds one unit of mass at every node whose address is a prefix of
the descent path of `x`, and leaves every other node's mass unchanged. -/
theorem massAt_insert : ∀ (t : Node) (x : List ℚ) (p : List Bool),
    (t.insert x).massAt p =
      if p.isPrefixOf (t.pathOf x) then (t.massAt p).map (· + 1)
      else t.massAt p
  | .mk sd sv (some l) (some r) dep m, x, p => by
    simp only [Node.insert, Node.pathOf]
    by_cases hc : x.getD sd 0 < sv
    · simp only [if_pos hc]
      match p with
      | [] => simp [Node.massAt, List.isPrefixOf]
      | false :: p' =>
          simpa [Node.massAt, List.isPrefixOf] using massAt_insert l x p'
      | true :: p' => simp [Node.massAt, List.isPrefixOf]
    · simp only [if_neg hc]
      match p with
      | [] => simp [Node.massAt, List.isPrefixOf]
      | false :: p' => simp [Node.massAt, List.isPrefixOf]
      | true :: p' =>
          simpa [Node.massAt, List.isPrefixOf] using massAt_insert r x p'
  | .mk sd sv (some l) none dep m, x, p => by
    simp only [Node.insert, Node.pathOf]
    match p with
    | [] => simp [Node.massAt, List.isPrefixOf]
    | false :: p' => simp [Node.massAt, List.isPrefixOf]
    | true :: p' => simp [Node.massAt, List.isPrefixOf]
  | .mk sd sv none (some r) dep m, x, p => by
    simp only [Node.insert, Node.pathOf]
    match p with
    | [] => simp [Node.massAt, List.isPrefixOf]
    | false :: p' => simp [Node.massAt, List.isPrefixOf]
    | true :: p' => simp [Node.massAt, List.isPrefixOf]
  | .mk sd sv none none dep m, x, p => by
    simp only [Node.insert, Node.pathOf]
    match p with
    | [] => simp [Node.massAt, List.isPrefixOf]
    | false :: p' => simp [Node.massAt, List.isPrefixOf]
    | true :: p' => simp [Node.massAt, List.isPrefixOf]

/-- `decay` multiplies the mass at every address by `alpha`. -/
theorem massAt_decay : ∀ (t : Node) (alpha : ℚ) (p : List Bool),
    (t.decay alpha).massAt p = (t.massAt p).map (· * alpha)
  | .mk sd sv (some l) (some r) dep m, alpha, p => by
    match p with
    | [] => simp [Node.decay, Node.massAt]
    | false :: p' => simpa [Node.decay, Node.massAt] using massAt_decay l alpha p'
    | true :: p' => simpa [Node.decay, Node.massAt] using massAt_decay r alpha p'
  | .mk sd sv (some l) none dep m, alpha, p => by
    match p with
    | [] => simp [Node.decay, Node.massAt]
    | false :: p' => simpa [Node.decay, Node.massAt] using massAt_decay l alpha p'
    | true :: p' => simp [Node.decay, Node.massAt]
  | .mk sd sv none (some r) dep m, alpha, p => by
    match p with
    | [] => simp [Node.decay, Node.massAt]
    | false :: p' => simp [Node.decay, Node.massAt]
    | true :: p' => simpa [Node.decay, Node.massAt] using massAt_decay r alpha p'
  | .mk sd sv none none dep m, alpha, p => by
    match p with
    | [] => simp [Node.decay, Node.massAt]
    | false :: p' => simp [Node.decay, Node.massAt]
    | true :: p' => simp [Node.decay, Node.massAt]

/-- `decay 1` is the identity on every node. -/
theorem decay_one : ∀ t : Node, t.decay 1 = t
  | .mk sd sv (some l) (some r) dep m => by
    simp [Node.decay, decay_one l, decay_one r]
  | .mk sd sv (some l) none dep m => by simp [Node.decay, decay_one l]
  | .mk sd sv none (some r) dep m => by simp [Node.decay, decay_one r]
  | .mk sd sv none none dep m => by simp [Node.decay]

/-- On a well-formed subtree rooted at depth `d`, every descent path reaches
a leaf after exactly `maxDepth - d` steps. -/
theorem pathOf_length : ∀ (t : Node) (nd maxd d : Nat) (x : List ℚ),
    t.wf nd maxd d = true → (t.pathOf x).length = maxd - d
  | .mk sd sv (some l) (some r) dep m, nd, maxd, d, x => by
    intro hwf
    simp only [Node.wf, Bool.and_eq_true, beq_iff_eq, decide_eq_true_eq] at hwf
    obtain ⟨⟨⟨⟨-, -⟩, hdm⟩, hl⟩, hr⟩ := hwf
    simp only [Node.pathOf]
    by_cases hc : x.getD sd 0 < sv
    · rw [if_pos hc]
      simp only [List.length_cons, pathOf_length l nd maxd (d + 1) x hl]
      omega
    · rw [if_neg hc]
      simp only [List.length_cons, pathOf_length r nd maxd (d + 1) x hr]
      omega
  | .mk sd sv none none dep m, nd, maxd, d, x => by
    intro hwf
    simp only [Node.wf, Bool.and_eq_true, beq_iff_eq, decide_eq_true_eq] at hwf
    simp only [Node.pathOf, List.length_nil]
    omega
  | .mk sd sv (some l) none dep m, nd, maxd, d, x => by
    intro hwf
    simp [Node.wf] at hwf
  | .mk sd sv none (some r) dep m, nd, maxd, d, x => by
    intro hwf
    simp [Node.wf] at hwf

/-- The leaf formula `rarity * depth_factor` lies in `(0, 2)`: the rarity
factor is in `(0, 1]` and the depth factor in `[1, 2)`. -/
theorem leaf_formula_bounds (m : ℚ) (dep maxd : Nat) :
    0 < (1 / (1 + max m 0)) * (1 + ((maxd - dep : Nat) : ℚ) / (maxd + 1)) ∧
      (1 / (1 + max m 0)) * (1 + ((maxd - dep : Nat) : ℚ) / (maxd + 1)) < 2 := by
  have hz : (0 : ℚ) ≤ max m 0 := le_max_right m 0
  have hz1 : (0 : ℚ) < 1 + max m 0 := by linarith
  have hr0 : (0 : ℚ) < 1 / (1 + max m 0) := by positivity
  have hr1 : 1 / (1 + max m 0) ≤ 1 := by
    rw [div_le_one hz1]; linarith
  have hk0 : (0 : ℚ) ≤ ((maxd - dep : Nat) : ℚ) := by positivity
  have hkle : ((maxd - dep : Nat) : ℚ) ≤ (maxd : ℚ) := by
    exact_mod_cast Nat.sub_le maxd dep
  have hd1 : (0 : ℚ) < (maxd : ℚ) + 1 := by positivity
  have hdf0 : (0 : ℚ) ≤ ((maxd - dep : Nat) : ℚ) / (maxd + 1) := by positivity
  have hdf1 : ((maxd - dep : Nat) : ℚ) / (maxd + 1) < 1 := by
    rw [div_lt_one hd1]; linarith
  constructor
  · positivity
  · calc (1 / (1 + max m 0)) * (1 + ((maxd - dep : Nat) : ℚ) / (maxd + 1))
        ≤ 1 + ((maxd - dep : Nat) : ℚ) / (maxd + 1) :=
          mul_le_of_le_one_left (by linarith) hr1
      _ < 2 := by linarith

/-- Every score is strictly positive and strictly below 2. -/
theorem score_bounds : ∀ (t : Node) (x : List ℚ) (maxd : Nat),
    0 < t.score x maxd ∧ t.score x maxd < 2
  | .mk sd sv (some l) (some r) dep m, x, maxd => by
    simp only [Node.score]
    by_cases hc : x.getD sd 0 < sv
    · rw [if_pos hc]; exact score_bounds l x maxd
    · rw [if_neg hc]; exact score_bounds r x maxd
  | .mk sd sv none none dep m, x, maxd => by
    simp only [Node.score]; exact leaf_formula_bounds m dep maxd
  | .mk sd sv (some l) none dep m, x, maxd => by
    simp only [Node.score]; exact leaf_formula_bounds m dep maxd
  | .mk sd sv none (some r) dep m, x, maxd => by
    simp only [Node.score]; exact leaf_formula_bounds m dep maxd

/-- `insert` never changes the shape of the tree. -/
theorem eraseMass_insert : ∀ (t : Node) (x : List ℚ),
    (t.insert x).eraseMass = t.eraseMass
  | .mk sd sv (some l) (some r) dep m, x => by
    simp only [Node.insert]
    by_cases hc : x.getD sd 0 < sv
    · rw [if_pos hc]; simp [Node.eraseMass, eraseMass_insert l x]
    · rw [if_neg hc]; simp [Node.eraseMass, eraseMass_insert r x]
  | .mk sd sv (some l) none dep m, x => by simp [Node.insert, Node.eraseMass]
  | .mk sd sv none (some r) dep m, x => by simp [Node.insert, Node.eraseMass]
  | .mk sd sv none none dep m, x => by simp [Node.insert, Node.eraseMass]

/-- `decay` never changes the shape of the tree. -/
theorem eraseMass_decay : ∀ (t : Node) (alpha : ℚ),
    (t.decay alpha).eraseMass = t.eraseMass
  | .mk sd sv (some l) (some r) dep m, alpha => by
    simp [Node.decay, Node.eraseMass, eraseMass_decay l alpha, eraseMass_decay r alpha]
  | .mk sd sv (some l) none dep m, alpha => by
    simp [Node.decay, Node.eraseMass, eraseMass_decay l alpha]
  | .mk sd sv none (some r) dep m, alpha => by
    simp [Node.decay, Node.eraseMass, eraseMass_decay r alpha]
  | .mk sd sv none none dep m, alpha => by simp [Node.decay, Node.eraseMass]

/-- `decay` maps the list of masses by multiplication with `alpha`. -/
theorem masses_decay : ∀ (t : Node) (alpha : ℚ),
    (t.decay alpha).masses = t.masses.map (· * alpha)
  | .mk sd sv (some l) (some r) dep m, alpha => by
    simp [Node.decay, Node.masses, masses_decay l alpha, masses_decay r alpha]
  | .mk sd sv (some l) none dep m, alpha => by
    simp [Node.decay, Node.masses, masses_decay l alpha]
  | .mk sd sv none (some r) dep m, alpha => by
    simp [Node.decay, Node.masses, masses_decay r alpha]
  | .mk sd sv none none dep m, alpha => by simp [Node.decay, Node.masses]

/-- `insert` keeps all masses non-negative. -/
theorem masses_insert_nonneg : ∀ (t : Node) (x : List ℚ),
    (∀ m ∈ t.masses, 0 ≤ m) → ∀ m ∈ (t.insert x).masses, 0 ≤ m
  | .mk sd sv (some l) (some r) dep m, x => by
    intro h
    simp only [Node.masses, List.mem_cons, List.mem_append] at h
    simp only [Node.insert]
    by_cases hc : x.getD sd 0 < sv
    · rw [if_pos hc]
      simp only [Node.masses, List.mem_cons, List.mem_append]
      rintro m' (rfl | hm' | hm')
      · have := h m (Or.inl rfl); linarith
      · exact masses_insert_nonneg l x (fun a ha => h a (Or.inr (Or.inl ha))) m' hm'
      · exact h m' (Or.inr (Or.inr hm'))
    · rw [if_neg hc]
      simp only [Node.masses, List.mem_cons, List.mem_append]
      rintro m' (rfl | hm' | hm')
      · have := h m (Or.inl rfl); linarith
      · exact h m' (Or.inr (Or.inl hm'))
      · exact masses_insert_nonneg r x (fun a ha => h a (Or.inr (Or.inr ha))) m' hm'
  | .mk sd sv (some l) none dep m, x => by
    intro h
    simp only [Node.masses, List.mem_cons] at h
    simp only [Node.insert, Node.masses, List.mem_cons]
    rintro m' (rfl | hm')
    · have := h m (Or.inl rfl); linarith
    · exact h m' (Or.inr hm')
  | .mk sd sv none (some r) dep m, x => by
    intro h
    simp only [Node.masses, List.mem_cons] at h
    simp only [Node.insert, Node.masses, List.mem_cons]
    rintro m' (rfl | hm')
    · have := h m (Or.inl rfl); linarith
    · exact h m' (Or.inr hm')
  | .mk sd sv none none dep m, x => by
    intro h
    simp only [Node.masses, List.mem_singleton] at h
    simp only [Node.insert, Node.masses, List.mem_singleton]
    rintro m' rfl
    have := h m rfl; linarith

/-- Specification of the construction loop on success, by induction on the
fuel: the built subtree is well-formed (complete, leaves at `max_depth`,
split dimensions in range), every mass is zero, the draw streams are
untouched, and the cursor advances by exactly two raw draws (one dimension,
one threshold) per node of the complete subtree. -/
theorem randomizedFuel_spec : ∀ (fuel depth maxd : Nat) (bounds : List (ℚ × ℚ))
    (g : Rng) (t : Node) (g' : Rng), depth ≤ maxd →
    Node.randomizedFuel fuel depth maxd bounds g = .ok (t, g') →
    t.wf bounds.length maxd depth = true ∧
    g'.nats = g.nats ∧ g'.rats = g.rats ∧
    g'.idx = g.idx + 2 * (2 ^ (maxd - depth + 1) - 1) ∧
    (∀ m ∈ t.masses, m = 0)
  | fuel, depth, maxd, bounds, g, t, g' => by
    intro hle h
    unfold Node.randomizedFuel at h
    cases hr : Rng.randRange g bounds.length with
    | error e => rw [hr] at h; rw [error_bind] at h; exact absurd h (by simp)
    | ok p =>
      obtain ⟨sd, g1⟩ := p
      obtain ⟨hsd, hg1⟩ := randRange_ok hr
      rw [hr, ok_bind] at h
      simp only at h
      cases hs : Rng.sampleUniform g1 (bounds.getD sd (0, 0)).1 (bounds.getD sd (0, 0)).2 with
      | error e => rw [hs] at h; rw [error_bind] at h; exact absurd h (by simp)
      | ok q =>
        obtain ⟨sv, g2⟩ := q
        obtain ⟨-, hg2⟩ := sampleUniform_ok hs
        rw [hs, ok_bind] at h
        by_cases hd : maxd ≤ depth
        · rw [if_pos hd] at h
          have hdm : depth = maxd := Nat.le_antisymm hle hd
          simp only [except_pure] at h
          injection h with h
          injection h with ht hg
          subst ht hg hg2 hg1
          refine ⟨?_, rfl, rfl, ?_, ?_⟩
          · simp [Node.wf, hsd, hdm]
          · have : maxd - depth = 0 := by omega
            simp [Rng.next, this]
          · simp [Node.masses]
        · rw [if_neg hd] at h
          match fuel, h with
          | 0, h => rw [except_throw] at h; exact absurd h (by simp)
          | fuel + 1, h =>
            simp only at h
            cases hl : Node.randomizedFuel fuel (depth + 1) maxd bounds g2 with
            | error e => rw [hl] at h; rw [error_bind] at h; exact absurd h (by simp)
            | ok pl =>
              obtain ⟨l, g3⟩ := pl
              rw [hl, ok_bind] at h
              simp only at h
              cases hrt : Node.randomizedFuel fuel (depth + 1) maxd bounds g3 with
              | error e => rw [hrt] at h; rw [error_bind] at h; exact absurd h (by simp)
              | ok pr =>
                obtain ⟨r, g4⟩ := pr
                rw [hrt, ok_bind] at h
                simp only [except_pure] at h
                injection h with h
                injection h with ht hg
                subst ht hg
                have IHl := randomizedFuel_spec fuel (depth + 1) maxd bounds g2 l g3 (by omega) hl
                have IHr := randomizedFuel_spec fuel (depth + 1) maxd bounds g3 r g4 (by omega) hrt
                obtain ⟨hwl, hnl, hrl, hil, hml⟩ := IHl
                obtain ⟨hwr, hnr, hrr, hir, hmr⟩ := IHr
                refine ⟨?_, ?_, ?_, ?_, ?_⟩
                · simp [Node.wf, hsd, hwl, hwr]; omega
                · rw [hnr, hnl, hg2, hg1]; rfl
                · rw [hrr, hrl, hg2, hg1]; rfl
                · have he : maxd - (depth + 1) + 1 = maxd - depth := by omega
                  rw [hir, hil, hg2, hg1]
                  rw [he] at *
                  have hpow : (2 : Nat) ^ (maxd - depth + 1) = 2 ^ (maxd - depth) * 2 :=
                    pow_succ 2 (maxd - depth)
                  have hone : 1 ≤ (2 : Nat) ^ (maxd - depth) := Nat.one_le_two_pow
                  simp only [Rng.next]
                  omega
                · intro m hm
                  simp only [Node.masses, List.mem_cons, List.mem_append] at hm
                  rcases hm with rfl | hm | hm
                  · rfl
                  · exact hml m hm
                  · exact hmr m hm

/-- Specification of `Node::randomized` on success (see
`randomizedFuel_spec`); from the root the cursor advances by
`2 * (2 ^ (maxd - depth + 1) - 1)` raw draws. -/
theorem randomized_spec (depth maxd : Nat) (bounds : List (ℚ × ℚ)) (g : Rng) :
    ∀ (t : Node) (g' : Rng), depth ≤ maxd →
    Node.randomized depth maxd bounds g = .ok (t, g') →
    t.wf bounds.length maxd depth = true ∧
    g'.nats = g.nats ∧ g'.rats = g.rats ∧
    g'.idx = g.idx + 2 * (2 ^ (maxd - depth + 1) - 1) ∧
    (∀ m ∈ t.masses, m = 0) := by
  intro t g' hle h
  exact randomizedFuel_spec (maxd - depth) depth maxd bounds g t g' hle h

/-- Specification of `HalfSpaceTree::new` on success: the stored metadata
matches `bounds`, the root is well-formed, and all masses start at zero. -/
theorem tree_new_spec {maxd : Nat} {bounds : List (ℚ × ℚ)} {g : Rng}
    {t : HalfSpaceTree} {g' : Rng}
    (h : HalfSpaceTree.new maxd bounds g = .ok (t, g')) :
    t.n_dims = bounds.length ∧ t.max_depth = maxd ∧
    t.root.wf bounds.length maxd 0 = true ∧
    g'.nats = g.nats ∧ g'.rats = g.rats ∧
    g'.idx = g.idx + 2 * (2 ^ (maxd + 1) - 1) ∧
    (∀ m ∈ t.root.masses, m = 0) := by
  unfold HalfSpaceTree.new at h
  by_cases hb : bounds.isEmpty
  · rw [if_pos hb] at h
    rw [except_throw, error_bind] at h
    exact absurd h (by simp)
  · rw [if_neg hb] at h
    simp only [except_pure, ok_bind] at h
    cases hr : Node.randomized 0 maxd bounds g with
    | error e => rw [hr, error_bind] at h; exact absurd h (by simp)
    | ok p =>
      obtain ⟨root, g1⟩ := p
      rw [hr, ok_bind] at h
      injection h with h
      injection h with ht hg
      subst ht hg
      obtain ⟨hw, hn, hrt, hi, hm⟩ :=
        randomized_spec 0 maxd bounds g root g1 (Nat.zero_le maxd) hr
      exact ⟨rfl, rfl, hw, hn, hrt, by simpa using hi, hm⟩

/-- Specification of the sequential tree-building loop of
`HalfSpaceTrees::new`. -/
theorem buildTrees_spec : ∀ (n maxd : Nat) (bounds : List (ℚ × ℚ)) (g : Rng)
    (ts : List HalfSpaceTree) (g' : Rng),
    HalfSpaceTrees.buildTrees n maxd bounds g = .ok (ts, g') →
    ts.length = n ∧
    ∀ t ∈ ts, t.n_dims = bounds.length ∧ t.max_depth = maxd ∧
      t.root.wf bounds.length maxd 0 = true ∧ (∀ m ∈ t.root.masses, m = 0)
  | 0, maxd, bounds, g, ts, g', h => by
    unfold HalfSpaceTrees.buildTrees at h
    injection h with h
    injection h with ht hg
    subst hg
    simp [← ht]
  | n + 1, maxd, bounds, g, ts, g', h => by
    unfold HalfSpaceTrees.buildTrees at h
    cases ht : HalfSpaceTree.new maxd bounds g with
    | error e => rw [ht, error_bind] at h; exact absurd h (by simp)
    | ok p =>
      obtain ⟨t, g1⟩ := p
      rw [ht, ok_bind] at h
      simp only at h
      cases hts : HalfSpaceTrees.buildTrees n maxd bounds g1 with
      | error e => rw [hts, error_bind] at h; exact absurd h (by simp)
      | ok q =>
        obtain ⟨rest, g2⟩ := q
        rw [hts, ok_bind] at h
        simp only [except_pure] at h
        injection h with h
        injection h with hl hg
        subst hg
        obtain ⟨h1, h2, h3, -, -, -, h4⟩ := tree_new_spec ht
        obtain ⟨hlen, hall⟩ := buildTrees_spec n maxd bounds g1 rest g2 hts
        subst hl
        constructor
        · simp [hlen]
        · intro u hu
          rcases List.mem_cons.mp hu with rfl | hu
          · exact ⟨h1, h2, h3, h4⟩
          · exact hall u hu

/-- Successful `mapM` over `Except`: every output comes from some input. -/
theorem mapM_ok_mem {α β : Type} (f : α → Except String β) :
    ∀ (l : List α) (l' : List β), l.mapM f = .ok l' →
      ∀ b ∈ l', ∃ a ∈ l, f a = .ok b
  | [], l', h => by
    simp only [List.mapM_nil] at h
    injection h with h
    simp [← h]
  | a :: l, l', h => by
    rw [List.mapM_cons] at h
    cases hfa : f a with
    | error e => rw [hfa, error_bind] at h; exact absurd h (by simp)
    | ok b =>
      rw [hfa] at h
      simp only [ok_bind] at h
      cases hl : l.mapM f with
      | error e =>
          rw [hl, error_bind] at h
          exact absurd h (by simp)
      | ok bs =>
          rw [hl] at h
          simp only [ok_bind, except_pure] at h
          intro b' hb'
          injection h with h
          rw [← h] at hb'
          rcases List.mem_cons.mp hb' with rfl | hb'
          · exact ⟨a, List.mem_cons_self a l, hfa⟩
          · obtain ⟨a', ha', hfa'⟩ := mapM_ok_mem f l bs hl b' hb'
            exact ⟨a', List.mem_cons_of_mem a ha', hfa'⟩

/-- Inversion for a successful `HalfSpaceTree.insert`: the length check
passed and only the root was replaced by its mass-updated version. -/
theorem tree_insert_ok {t u : HalfSpaceTree} {x : List ℚ}
    (h : t.insert x = .ok u) :
    x.length = t.n_dims ∧ u = { t with root := t.root.insert x } := by
  unfold HalfSpaceTree.insert at h
  by_cases hx : x.length ≠ t.n_dims
  · rw [if_pos hx, except_throw, error_bind] at h
    exact absurd h (by simp)
  · rw [if_neg hx, except_pure, ok_bind, except_pure] at h
    injection h with h
    exact ⟨not_not.mp hx, h.symm⟩

/-- Inversion for a successful `HalfSpaceTree.score`: the length check passed
and the value is the root's score. -/
theorem tree_score_ok {t : HalfSpaceTree} {x : List ℚ} {v : ℚ}
    (h : t.score x = .ok v) :
    x.length = t.n_dims ∧ v = t.root.score x t.max_depth := by
  unfold HalfSpaceTree.score at h
  by_cases hx : x.length ≠ t.n_dims
  · rw [if_pos hx, except_throw, error_bind] at h
    exact absurd h (by simp)
  · rw [if_neg hx, except_pure, ok_bind, except_pure] at h
    injection h with h
    exact ⟨not_not.mp hx, h.symm⟩

/-- `HalfSpaceTree.score` succeeds exactly on well-sized queries. -/
theorem tree_score_eq {t : HalfSpaceTree} {x : List ℚ}
    (hx : x.length = t.n_dims) :
    t.score x = .ok (t.root.score x t.max_depth) := by
  unfold HalfSpaceTree.score
  rw [if_neg (by omega), except_pure, ok_bind, except_pure]

/-- The score-summing loop of `HalfSpaceTrees::score` on well-sized queries:
it succeeds and accumulates the per-tree scores. -/
theorem score_foldlM (x : List ℚ) :
    ∀ (l : List HalfSpaceTree) (s : ℚ), (∀ t ∈ l, x.length = t.n_dims) →
      l.foldlM (fun s t => do
          let v ← t.score x
          return s + v) s =
        .ok (s + (l.map (fun t => t.root.score x t.max_depth)).sum)
  | [], s, _ => by simp [List.foldlM_nil, except_pure]
  | t :: l, s, h => by
    rw [List.foldlM_cons]
    rw [tree_score_eq (h t (List.mem_cons_self t l)), ok_bind, except_pure, ok_bind]
    rw [score_foldlM x l (s + t.root.score x t.max_depth)
      (fun u hu => h u (List.mem_cons_of_mem t hu))]
    simp only [List.map_cons, List.sum_cons]
    ring_nf

/-- A non-empty list of per-tree scores sums into `(0, 2·len)`. -/
theorem score_sum_bounds (x : List ℚ) :
    ∀ l : List HalfSpaceTree, l ≠ [] →
      0 < (l.map (fun t => t.root.score x t.max_depth)).sum ∧
        (l.map (fun t => t.root.score x t.max_depth)).sum < 2 * l.length
  | [], h => absurd rfl h
  | t :: l, _ => by
    simp only [List.map_cons, List.sum_cons, List.length_cons]
    obtain ⟨h1, h2⟩ := score_bounds t.root x t.max_depth
    rcases eq_or_ne l [] with rfl | hne
    · simp only [List.map_nil, List.sum_nil, List.length_nil]
      push_cast
      constructor <;> linarith
    · obtain ⟨h3, h4⟩ := score_sum_bounds x l hne
      push_cast
      constructor <;> linarith

/-- `runOps` preserves non-negativity of all masses when every decay factor
lies in `(0, 1]`. -/
theorem runOps_masses_nonneg :
    ∀ (ops : List Op), (∀ a, Op.decay a ∈ ops → 0 < a ∧ a ≤ 1) →
    ∀ (f f' : HalfSpaceTrees), (∀ t ∈ f.trees, ∀ m ∈ t.root.masses, 0 ≤ m) →
    runOps f ops = .ok f' → ∀ t ∈ f'.trees, ∀ m ∈ t.root.masses, 0 ≤ m
  | [], _, f, f', hf, h => by
    unfold runOps at h
    simp only [List.foldlM_nil] at h
    injection h with h
    exact h ▸ hf
  | op :: ops, hv, f, f', hf, h => by
    unfold runOps at h
    rw [List.foldlM_cons] at h
    cases hop : applyOp f op with
    | error e => rw [hop, error_bind] at h; exact absurd h (by simp)
    | ok f1 =>
      rw [hop, ok_bind] at h
      have hf1 : ∀ t ∈ f1.trees, ∀ m ∈ t.root.masses, 0 ≤ m := by
        match op with
        | .insert x =>
            simp only [applyOp, HalfSpaceTrees.insert] at hop
            cases hmm : f.trees.mapM (fun t => t.insert x) with
            | error e => rw [hmm, error_bind] at hop; exact absurd hop (by simp)
            | ok ts =>
                rw [hmm, ok_bind, except_pure] at hop
                injection hop with hop
                intro u hu
                rw [← hop] at hu
                obtain ⟨a, ha, hins⟩ :=
                  mapM_ok_mem (fun t => t.insert x) f.trees ts hmm u hu
                obtain ⟨-, rfl⟩ := tree_insert_ok hins
                exact masses_insert_nonneg a.root x (hf a ha)
        | .decay alpha =>
            simp only [applyOp] at hop
            injection hop with hop
            have halpha := hv alpha (List.mem_cons_self _ ops)
            intro u hu
            rw [← hop] at hu
            simp only [HalfSpaceTrees.decay, List.mem_map] at hu
            obtain ⟨a, ha, rfl⟩ := hu
            simp only [HalfSpaceTree.decay, masses_decay, List.mem_map]
            rintro m ⟨m0, hm0, rfl⟩
            exact mul_nonneg (hf a ha m0 hm0) (le_of_lt halpha.1)
      exact runOps_masses_nonneg ops
        (fun a hmem => hv a (List.mem_cons_of_mem op hmem)) f1 f' hf1 h

/-- One insertion adds exactly 1 to the root mass, whatever the tree. -/
theorem mass_insert : ∀ (u : Node) (x : List ℚ), (u.insert x).mass = u.mass + 1
  | .mk sd sv (some l) (some r) dep m, x => by
    simp only [Node.insert]
    by_cases hc : x.getD sd 0 < sv
    · rw [if_pos hc]; rfl
    · rw [if_neg hc]; rfl
  | .mk sd sv (some l) none dep m, x => rfl
  | .mk sd sv none (some r) dep m, x => rfl
  | .mk sd sv none none dep m, x => rfl

/-- When every dimension's range is empty (`min ≥ max`), construction fails
at the very first threshold sample. -/
theorem randomized_fails (depth maxd : Nat) (bounds : List (ℚ × ℚ)) (g : Rng)
    (hlen : bounds.length ≠ 0) (hdeg : ∀ p ∈ bounds, ¬ p.1 < p.2) :
    Node.randomized depth maxd bounds g = .error "Uniform::try_from on empty range" := by
  unfold Node.randomized Node.randomizedFuel
  cases hr : Rng.randRange g bounds.length with
  | error e =>
      unfold Rng.randRange at hr
      rw [if_neg hlen] at hr
      exact absurd hr (by simp)
  | ok p =>
    obtain ⟨sd, g1⟩ := p
    obtain ⟨hsd, -⟩ := randRange_ok hr
    rw [ok_bind]
    simp only
    have hmem : bounds.getD sd (0, 0) ∈ bounds := by
      rw [List.getD_eq_getElem bounds (0, 0) hsd]
      exact List.getElem_mem hsd
    have : Rng.sampleUniform g1 (bounds.getD sd (0, 0)).1 (bounds.getD sd (0, 0)).2 =
        .error "Uniform::try_from on empty range" := by
      unfold Rng.sampleUniform
      rw [if_neg (hdeg _ hmem)]
    rw [this, error_bind]

/-- `HalfSpaceTree::new` fails when bounds are empty or fully degenerate. -/
theorem tree_new_fails (maxd : Nat) (bounds : List (ℚ × ℚ)) (g : Rng)
    (hb : bounds = [] ∨ ∀ p ∈ bounds, ¬ p.1 < p.2) :
    ∃ e, HalfSpaceTree.new maxd bounds g = .error e := by
  unfold HalfSpaceTree.new
  by_cases hbe : bounds.isEmpty
  · rw [if_pos hbe, except_throw, error_bind]
    exact ⟨_, rfl⟩
  · have hlen : bounds.length ≠ 0 := by
      simpa [List.isEmpty_iff_length_eq_zero] using hbe
    have hdeg : ∀ p ∈ bounds, ¬ p.1 < p.2 := by
      rcases hb with rfl | hdeg
      · simp at hlen
      · exact hdeg
    rw [if_neg hbe, except_pure, ok_bind,
      randomized_fails 0 maxd bounds g hlen hdeg, error_bind]
    exact ⟨_, rfl⟩

/-- `HalfSpaceTree::insert` fails on a length mismatch. -/
theorem tree_insert_fails {t : HalfSpaceTree} {x : List ℚ}
    (hx : x.length ≠ t.n_dims) :
    t.insert x = .error "assertion failed: x.len() == self.n_dims" := by
  unfold HalfSpaceTree.insert
  rw [if_pos hx, except_throw, error_bind]

/-- `HalfSpaceTree::score` fails on a length mismatch. -/
theorem tree_score_fails {t : HalfSpaceTree} {x : List ℚ}
    (hx : x.length ≠ t.n_dims) :
    t.score x = .error "assertion failed: x.len() == self.n_dims" := by
  unfold HalfSpaceTree.score
  rw [if_pos hx, except_throw, error_bind]

/-- Specification of `HalfSpaceTrees::new` on success: `n_trees` trees, each
with matching metadata, a well-formed complete root and all-zero masses. -/
theorem forest_new_spec {nT maxd : Nat} {bounds : List (ℚ × ℚ)} {g : Rng}
    {f : HalfSpaceTrees} {g' : Rng}
    (h : HalfSpaceTrees.new nT maxd bounds g = .ok (f, g')) :
    f.trees.length = nT ∧
    ∀ t ∈ f.trees, t.n_dims = bounds.length ∧ t.max_depth = maxd ∧
      t.root.wf bounds.length maxd 0 = true ∧ (∀ m ∈ t.root.masses, m = 0) := by
  unfold HalfSpaceTrees.new at h
  cases hb : HalfSpaceTrees.buildTrees nT maxd bounds g with
  | error e => rw [hb, error_bind] at h; exact absurd h (by simp)
  | ok p =>
    obtain ⟨ts, g1⟩ := p
    rw [hb, ok_bind] at h
    simp only [except_pure] at h
    injection h with h
    obtain ⟨h1, h2⟩ := buildTrees_spec nT maxd bounds g ts g1 hb
    injection h with hf hg
    rw [← hf]
    exact ⟨h1, h2⟩

/-! ### The claims -/

/-- Claim C1: for every well-formed tree and every feature vector `x` of
length `n_dims`, `insert x` increments the mass by exactly 1 at every node on
the root-to-leaf descent path of `x` (left when `x[split_dim] < split_val`,
right otherwise) — a path of `max_depth` edges, hence `max_depth + 1` nodes,
the addresses being exactly the prefixes of `pathOf` — leaves every other
node's mass unchanged, and accumulates on repetition (the root reaches
`mass + 2` after two identical calls). -/
theorem claim_C1_insert_path (t : Node) (nd maxd : Nat) (x : List ℚ)
    (hwf : t.wf nd maxd 0 = true) (_hx : x.length = nd) :
    (t.pathOf x).length = maxd ∧
    (∀ p : List Bool,
      (t.insert x).massAt p =
        if p.isPrefixOf (t.pathOf x) then (t.massAt p).map (· + 1)
        else t.massAt p) ∧
    ((t.insert x).insert x).mass = t.mass + 2 := by
  refine ⟨by simpa using pathOf_length t nd maxd 0 x hwf,
    fun p => massAt_insert t x p, ?_⟩
  rw [mass_insert, mass_insert]
  ring

/-- Claim C1 witness at a concrete depth-1 tree and query. -/
theorem claim_C1_insert_path_witness :
    (node1.pathOf [1 / 4]).length = 1 ∧
    (∀ p : List Bool,
      (node1.insert [1 / 4]).massAt p =
        if p.isPrefixOf (node1.pathOf [1 / 4]) then (node1.massAt p).map (· + 1)
        else node1.massAt p) ∧
    ((node1.insert [1 / 4]).insert [1 / 4]).mass = node1.mass + 2 :=
  claim_C1_insert_path node1 1 1 [1 / 4] (by decide) rfl

/-- Claim C4: `decay alpha` multiplies the mass of every node of the tree by
`alpha` (a full traversal, so every address), `decay 1` is the identity on a
tree and on a whole forest, and a node with mass `m` ends with exactly
`m * alpha`. -/
theorem claim_C4_decay (t : Node) (alpha : ℚ) :
    (∀ p : List Bool, (t.decay alpha).massAt p = (t.massAt p).map (· * alpha)) ∧
    t.decay 1 = t ∧
    (∀ f : HalfSpaceTrees, f.decay 1 = f) := by
  refine ⟨massAt_decay t alpha, decay_one t, fun f => ?_⟩
  unfold HalfSpaceTrees.decay HalfSpaceTree.decay
  cases f with
  | mk trees =>
      simp only [HalfSpaceTrees.mk.injEq]
      have : ∀ u : HalfSpaceTree, { u with root := u.root.decay 1 } = u := by
        intro u; rw [decay_one]
      simp [this]

/-- Claim C6: every successfully constructed tree is complete with leaves
exactly at `max_depth` (children always come in pairs, stored depths match,
split dimensions are in range), every root-to-leaf descent has length
`max_depth`, and the shape (`eraseMass`) of any tree is invariant under
`insert` and `decay` (and `score` is a pure function of the tree). -/
theorem claim_C6_shape (maxd : Nat) (bounds : List (ℚ × ℚ)) (g : Rng)
    (t : Node) (g' : Rng)
    (h : Node.randomized 0 maxd bounds g = .ok (t, g')) :
    t.wf bounds.length maxd 0 = true ∧
    (∀ x : List ℚ, (t.pathOf x).length = maxd) ∧
    (∀ (u : Node) (x : List ℚ) (alpha : ℚ),
      (u.insert x).eraseMass = u.eraseMass ∧
        (u.decay alpha).eraseMass = u.eraseMass) := by
  obtain ⟨hw, -, -, -, -⟩ := randomized_spec 0 maxd bounds g t g' (Nat.zero_le _) h
  exact ⟨hw, fun x => by simpa using pathOf_length t bounds.length maxd 0 x hw,
    fun u x alpha => ⟨eraseMass_insert u x, eraseMass_decay u alpha⟩⟩

unseal Rat.add Rat.mul Rat.inv Rat.sub in
/-- Claim C6 witness at a concrete depth-1 construction. -/
theorem claim_C6_shape_witness :
    node1.wf 1 1 0 = true ∧
    (∀ x : List ℚ, (node1.pathOf x).length = 1) ∧
    (∀ (u : Node) (x : List ℚ) (alpha : ℚ),
      (u.insert x).eraseMass = u.eraseMass ∧
        (u.decay alpha).eraseMass = u.eraseMass) :=
  claim_C6_shape 1 [(0, 1)] rng0 node1 rng6 rfl

/-- Claim C9: a forest holding exactly one tree scores exactly as that tree
does (the average over one tree is the identity), including agreement on the
failure cases. -/
theorem claim_C9_singleton (t : HalfSpaceTree) (x : List ℚ) :
    HalfSpaceTrees.score ⟨[t]⟩ x = t.score x := by
  unfold HalfSpaceTrees.score
  rw [List.foldlM_cons]
  cases hs : t.score x with
  | error e =>
      rw [error_bind, error_bind, error_bind]
  | ok v =>
      rw [ok_bind, except_pure, ok_bind, List.foldlM_nil, except_pure, ok_bind]
      simp only [List.length_cons, List.length_nil, Nat.zero_add, except_pure,
        ok_bind, if_neg (Nat.one_ne_zero), Nat.cast_one]
      norm_num

/-- Claim C10: a successful tree construction samples a split dimension and a
split threshold at every one of the `2 ^ (max_depth + 1) - 1` nodes of the
complete tree, leaves included, consuming exactly that many (dimension,
threshold) pairs — two raw draws per pair in this model — and it advances
only the cursor of the shared random source, which is what separates the
trees of a forest. -/
theorem claim_C10_draws (maxd : Nat) (bounds : List (ℚ × ℚ)) (g : Rng)
    (t : Node) (g' : Rng)
    (h : Node.randomized 0 maxd bounds g = .ok (t, g')) :
    g'.idx = g.idx + 2 * (2 ^ (maxd + 1) - 1) ∧
    g'.nats = g.nats ∧ g'.rats = g.rats := by
  obtain ⟨-, hn, hr, hi, -⟩ := randomized_spec 0 maxd bounds g t g' (Nat.zero_le _) h
  exact ⟨by simpa using hi, hn, hr⟩

unseal Rat.add Rat.mul Rat.inv Rat.sub in
/-- Claim C10 witness: a depth-1 construction consumes 2·(2²−1) = 6 raw
draws, i.e. 3 pairs, one per node. -/
theorem claim_C10_draws_witness :
    rng6.idx = rng0.idx + 2 * (2 ^ (1 + 1) - 1) ∧
    rng6.nats = rng0.nats ∧ rng6.rats = rng0.rats :=
  claim_C10_draws 1 [(0, 1)] rng0 node1 rng6 rfl

unseal Rat.add Rat.mul Rat.inv Rat.sub in
/-- Claim C2 counterexample: a forest built from valid bounds but with
`n_trees == 0` is constructed successfully, yet `score` on a valid query of
matching length does not return a (finite) value: the source computes
`0.0 / 0.0 = NaN` in `f64`, modelled as the error result. -/
theorem claim_C2_counterexample :
    (HalfSpaceTrees.new 0 3 [((0 : ℚ), 1)] rng0).map
        (fun p => (p.1.score [(1 : ℚ) / 2]).isOk) = .ok false := by rfl

/-- Claim C2 (amended): for every forest holding at least one tree and every
query whose length matches each tree's `n_dims`, `score` returns a value in
`(0, 2]`: rarity lies in `(0, 1]` and the depth factor in `[1, 2)`.  (As
stated the claim fails for `n_trees == 0`, where the division `0.0 / 0.0`
yields `NaN`; see the counterexample.) -/
theorem claim_C2_score_bounds (f : HalfSpaceTrees) (x : List ℚ)
    (hne : f.trees ≠ [])
    (hdims : ∀ t ∈ f.trees, x.length = t.n_dims) :
    ∃ v, f.score x = .ok v ∧ 0 < v ∧ v ≤ 2 := by
  unfold HalfSpaceTrees.score
  rw [score_foldlM x f.trees 0 hdims, ok_bind]
  have hlen : f.trees.length ≠ 0 := by
    simpa [List.length_eq_zero] using hne
  rw [if_neg hlen, except_pure, ok_bind, except_pure]
  refine ⟨_, rfl, ?_, ?_⟩
  · obtain ⟨h1, -⟩ := score_sum_bounds x f.trees hne
    have hlpos : (0 : ℚ) < f.trees.length := by
      exact_mod_cast Nat.pos_of_ne_zero hlen
    positivity
  · obtain ⟨h1, h2⟩ := score_sum_bounds x f.trees hne
    have hlpos : (0 : ℚ) < f.trees.length := by
      exact_mod_cast Nat.pos_of_ne_zero hlen
    rw [zero_add, div_le_iff₀ hlpos]
    linarith

/-- Claim C2 (amended) witness at the concrete one-tree forest. -/
theorem claim_C2_score_bounds_witness :
    ∃ v, HalfSpaceTrees.score ⟨[tree1]⟩ [(1 : ℚ) / 2] = .ok v ∧ 0 < v ∧ v ≤ 2 :=
  claim_C2_score_bounds ⟨[tree1]⟩ [(1 : ℚ) / 2] (by simp)
    (by intro t ht; simp only [List.mem_singleton] at ht; subst ht; rfl)

unseal Rat.add Rat.mul Rat.inv Rat.sub in
/-- Claim C3 counterexample: construction does not fail "every time" on the
stated inputs.  With `n_trees == 0` the tree constructor is never invoked, so
an empty bounds sequence is accepted; and with a partially degenerate bounds
sequence (`(5, 5)` in dimension 1) a random source that never samples the
degenerate dimension also constructs successfully. -/
theorem claim_C3_counterexample :
    (HalfSpaceTrees.new 0 5 [] rng0).isOk = true ∧
    (HalfSpaceTrees.new 1 0 [((0 : ℚ), 1), (5, 5)] rng0).isOk = true := by
  constructor <;> decide

/-- Claim C3 (amended): with `n_trees ≥ 1`, `Forest::new` fails whenever
`bounds` is empty, and whenever every dimension is degenerate (`min ≥ max`,
in particular `min == max`) — the first sampled dimension then has an empty
range.  (As stated the claim fails: with `n_trees == 0` nothing is
validated, and a partially degenerate bounds sequence only fails when the
degenerate dimension is actually sampled; see the counterexample.) -/
theorem claim_C3_new_fails (nT maxd : Nat) (bounds : List (ℚ × ℚ)) (g : Rng)
    (hn : 1 ≤ nT) (hb : bounds = [] ∨ ∀ p ∈ bounds, ¬ p.1 < p.2) :
    (HalfSpaceTrees.new nT maxd bounds g).isOk = false := by
  obtain ⟨n, rfl⟩ : ∃ n, nT = n + 1 := ⟨nT - 1, by omega⟩
  obtain ⟨e, he⟩ := tree_new_fails maxd bounds g hb
  unfold HalfSpaceTrees.new HalfSpaceTrees.buildTrees
  rw [he, error_bind, error_bind]
  rfl

unseal Rat.add Rat.mul Rat.inv Rat.sub in
/-- Claim C3 (amended) witness: one tree over a single degenerate dimension
fails to construct. -/
theorem claim_C3_new_fails_witness :
    (HalfSpaceTrees.new 1 0 [((5 : ℚ), 5)] rng0).isOk = false :=
  claim_C3_new_fails 1 0 [((5 : ℚ), 5)] rng0 (by decide)
    (Or.inr (by decide))

/-- Claim C5: on a forest whose trees all carry the same dimensionality
`n_dims` (as construction guarantees), `insert` and `score` with a vector of
the wrong length fail every time; moreover every individual tree's own
validation fails, which is why the failing call mutates nothing — the length
check precedes any mass update inside `HalfSpaceTree::insert`, so the error
escapes before any tree is touched. -/
theorem claim_C5_mismatch (f : HalfSpaceTrees) (nd : Nat) (x : List ℚ)
    (hne : f.trees ≠ []) (hdims : ∀ t ∈ f.trees, t.n_dims = nd)
    (hx : x.length ≠ nd) :
    (f.insert x).isOk = false ∧ (f.score x).isOk = false ∧
    ∀ t ∈ f.trees, (t.insert x).isOk = false ∧ (t.score x).isOk = false := by
  have hfail : ∀ t ∈ f.trees, x.length ≠ t.n_dims := by
    intro t ht
    rw [hdims t ht]
    exact hx
  obtain ⟨t0, rest, hcons⟩ := List.exists_cons_of_ne_nil hne
  have ht0 : t0 ∈ f.trees := by rw [hcons]; exact List.mem_cons_self t0 rest
  refine ⟨?_, ?_, fun t ht => ?_⟩
  · unfold HalfSpaceTrees.insert
    rw [hcons, List.mapM_cons, tree_insert_fails (hfail t0 ht0), error_bind,
      error_bind]
    rfl
  · unfold HalfSpaceTrees.score
    rw [hcons, List.foldlM_cons, tree_score_fails (hfail t0 ht0), error_bind,
      error_bind, error_bind]
    rfl
  · exact ⟨by rw [tree_insert_fails (hfail t ht)]; rfl,
      by rw [tree_score_fails (hfail t ht)]; rfl⟩

/-- Claim C5 witness: the empty query against a 1-dimensional forest. -/
theorem claim_C5_mismatch_witness :
    (HalfSpaceTrees.insert ⟨[tree1]⟩ []).isOk = false ∧
    (HalfSpaceTrees.score ⟨[tree1]⟩ []).isOk = false ∧
    ∀ t ∈ (HalfSpaceTrees.mk [tree1]).trees,
      (t.insert []).isOk = false ∧ (t.score []).isOk = false :=
  claim_C5_mismatch ⟨[tree1]⟩ 1 [] (by simp)
    (by intro t ht; simp only [List.mem_singleton] at ht; subst ht; rfl)
    (by decide)

/-- Claim C7: the whole pipeline — forest construction from a seeded source,
an arbitrary history of insert/decay calls, and a final query — is a pure
function of the seed, the parameters and the history: two runs with the same
inputs return the same score. -/
theorem claim_C7_determinism (nT maxd : Nat) (bounds : List (ℚ × ℚ)) (g : Rng)
    (ops : List Op) (x : List ℚ) (r₁ r₂ : Except String ℚ)
    (h₁ : runScore nT maxd bounds g ops x = r₁)
    (h₂ : runScore nT maxd bounds g ops x = r₂) : r₁ = r₂ :=
  h₁.symm.trans h₂

unseal Rat.add Rat.mul Rat.inv Rat.sub in
/-- Claim C7 witness: a concrete seeded run evaluates to the score 1, twice. -/
theorem claim_C7_determinism_witness :
    runScore 1 1 [((0 : ℚ), 1)] rng0 [.insert [1 / 4]] [3 / 4] = .ok 1 :=
  claim_C7_determinism 1 1 [((0 : ℚ), 1)] rng0 [.insert [1 / 4]] [3 / 4]
    (runScore 1 1 [((0 : ℚ), 1)] rng0 [.insert [1 / 4]] [3 / 4]) (.ok 1)
    rfl (by rfl)

/-- Claim C8: at construction every node's mass is 0; after any history of
inserts and decays with factors in `(0, 1]` every mass is non-negative;
`insert` changes each node's mass either not at all or by exactly `+1`
(never down); and `decay alpha` rescales every mass by `alpha` (never up for
masses that are non-negative when `alpha ≤ 1`). -/
theorem claim_C8_mass_invariant (nT maxd : Nat) (bounds : List (ℚ × ℚ))
    (g : Rng) (f : HalfSpaceTrees) (g' : Rng)
    (h : HalfSpaceTrees.new nT maxd bounds g = .ok (f, g')) :
    (∀ t ∈ f.trees, ∀ m ∈ t.root.masses, m = 0) ∧
    (∀ ops : List Op, (∀ a, Op.decay a ∈ ops → 0 < a ∧ a ≤ 1) →
      ∀ f', runOps f ops = .ok f' →
        ∀ t ∈ f'.trees, ∀ m ∈ t.root.masses, 0 ≤ m) ∧
    (∀ (u : Node) (x : List ℚ) (p : List Bool),
      (u.insert x).massAt p = u.massAt p ∨
        (u.insert x).massAt p = (u.massAt p).map (· + 1)) ∧
    (∀ (u : Node) (alpha : ℚ) (p : List Bool),
      (u.decay alpha).massAt p = (u.massAt p).map (· * alpha)) := by
  obtain ⟨-, hall⟩ := forest_new_spec h
  refine ⟨fun t ht => (hall t ht).2.2.2, ?_, ?_, massAt_decay⟩
  · intro ops hv f' hrun
    exact runOps_masses_nonneg ops hv f f'
      (fun t ht m hm => le_of_eq ((hall t ht).2.2.2 m hm).symm) hrun
  · intro u x p
    rcases hp : p.isPrefixOf (u.pathOf x) with hfalse | htrue
    · rw [massAt_insert u x p, hp]
      exact Or.inl (by simp)
    · rw [massAt_insert u x p, hp]
      exact Or.inr (by simp)

unseal Rat.add Rat.mul Rat.inv Rat.sub in
/-- Claim C8 witness at a concrete one-tree, depth-0 construction. -/
theorem claim_C8_mass_invariant_witness :
    (∀ t ∈ (HalfSpaceTrees.mk [⟨node0, 0, 1⟩]).trees,
      ∀ m ∈ t.root.masses, m = 0) ∧
    (∀ ops : List Op, (∀ a, Op.decay a ∈ ops → 0 < a ∧ a ≤ 1) →
      ∀ f', runOps ⟨[⟨node0, 0, 1⟩]⟩ ops = .ok f' →
        ∀ t ∈ f'.trees, ∀ m ∈ t.root.masses, 0 ≤ m) ∧
    (∀ (u : Node) (x : List ℚ) (p : List Bool),
      (u.insert x).massAt p = u.massAt p ∨
        (u.insert x).massAt p = (u.massAt p).map (· + 1)) ∧
    (∀ (u : Node) (alpha : ℚ) (p : List Bool),
      (u.decay alpha).massAt p = (u.massAt p).map (· * alpha)) :=
  claim_C8_mass_invariant 1 0 [((0 : ℚ), 1)] rng0 ⟨[⟨node0, 0, 1⟩]⟩ rng2 rfl

end HST
